import Mathlib

/-!
Verification development for the `bus_mate` BME280-over-Bus-Pirate driver
(`src/bme280/bme280.py`).

Strings are modelled as `List Char`.  Python regular-expression operations
are embedded as character scanners that implement the exact matching
semantics of the concrete patterns appearing in the source (each scanner is
documented with the pattern it embeds and the analysis of why backtracking
cannot change the outcome for that pattern).  Scanners that are not
structurally recursive take a fuel argument; fuel is instantiated with the
input length, which is always sufficient because every step consumes at
least one character.  Times are modelled in milliseconds as naturals.
-/

/-- Python's `str.split()` / `\s` whitespace (ASCII range, which is all the
serial stream can produce after `decode(errors='ignore')` of ASCII data). -/
def isPySpace (c : Char) : Bool :=
  c = ' ' || c = '\t' || c = '\n' || c = '\r' || c = '\x0b' || c = '\x0c'

/-- ASCII decimal digit, the `\d` class restricted to ASCII. -/
def isDigitB (c : Char) : Bool := '0' ≤ c && c ≤ '9'

/-- The `[0-9A-Fa-f]` class of the source's hex-byte patterns. -/
def isHexDigit (c : Char) : Bool :=
  ('0' ≤ c && c ≤ '9') || ('A' ≤ c && c ≤ 'F') || ('a' ≤ c && c ≤ 'f')

/-- The `[a-zA-Z]` class of the `clean_response` escape-sequence pattern. -/
def isAsciiAlpha (c : Char) : Bool :=
  ('a' ≤ c && c ≤ 'z') || ('A' ≤ c && c ≤ 'Z')

/-- CSI parameter byte class `[0-?]` (0x30..0x3F). -/
def isParamByte (c : Char) : Bool := 0x30 ≤ c.toNat && c.toNat ≤ 0x3F

/-- CSI intermediate byte class `[ -⁄]` (0x20..0x2F, space through slash). -/
def isInterByte (c : Char) : Bool := 0x20 ≤ c.toNat && c.toNat ≤ 0x2F

/-- CSI final byte class `[@-~]` (0x40..0x7E). -/
def isFinalByte (c : Char) : Bool := 0x40 ≤ c.toNat && c.toNat ≤ 0x7E

/-- Value of a hex digit, as used by Python's `int(tok, 16)`. -/
def hexDigitVal (c : Char) : Nat :=
  if '0' ≤ c && c ≤ '9' then c.toNat - 48
  else if 'a' ≤ c && c ≤ 'f' then c.toNat - 87
  else if 'A' ≤ c && c ≤ 'F' then c.toNat - 55
  else 0

/-- `sep.join(xs)` for a one-character separator. -/
def joinWith (sep : Char) : List (List Char) → List Char
  | [] => []
  | [t] => t
  | t :: ts => t ++ sep :: joinWith sep ts

/-- `" ".join(xs)`. -/
def joinSpace : List (List Char) → List Char := joinWith ' '

/-- Python `str.strip()`: remove leading and trailing whitespace. -/
def pyStrip (s : List Char) : List Char :=
  ((s.dropWhile isPySpace).reverse.dropWhile isPySpace).reverse

/-- Worker for Python `str.split()`: `cur` is the current word reversed. -/
def splitWsGo : List Char → List Char → List (List Char)
  | cur, [] => if cur = [] then [] else [cur.reverse]
  | cur, c :: cs =>
    if isPySpace c then
      if cur = [] then splitWsGo [] cs else cur.reverse :: splitWsGo [] cs
    else splitWsGo (c :: cur) cs

/-- Python `str.split()`: split on whitespace runs, dropping empty pieces. -/
def pySplit (s : List Char) : List (List Char) := splitWsGo [] s

/-- `" ".join(s.split())`, the whitespace normalization in `extract_rx_data`
(line 76). -/
def normWs (s : List Char) : List Char := joinSpace (pySplit s)

/-!
`re.sub(r'\x1B\[[0-?]*[ -⁄]*[@-~]', '', response)` (line 75).  The three
classes are pairwise disjoint and none contains `\x1B`, so the pattern
matches at a position exactly when the greedy left-to-right scan succeeds,
no backtracking can occur, and a failed attempt's tentatively consumed
characters contain no `\x1B` and hence no alternative match start; `re.sub`
then resumes the search at the character that caused the failure.  The
scanner below is that process as a single pass: `some (st, p)` is an open
attempt with pending (tentatively consumed) characters `p`.
-/

/-- Progress inside a CSI escape-sequence match attempt. -/
inductive EscSt
  | esc    -- seen `\x1B`, expecting `[`
  | params -- inside `[0-?]*`
  | inters -- inside `[ -⁄]*`
deriving DecidableEq

/-- One-pass `re.sub` of `\x1B\[[0-?]*[ -⁄]*[@-~]` with `''`. -/
def ansiSubEGo : Option (EscSt × List Char) → List Char → List Char
  | none, [] => []
  | some (_, p), [] => p
  | none, c :: cs =>
    if c = '\x1B' then ansiSubEGo (some (.esc, [c])) cs
    else c :: ansiSubEGo none cs
  | some (st, p), c :: cs =>
    match st with
    | .esc =>
      if c = '[' then ansiSubEGo (some (.params, p ++ [c])) cs
      else p ++ (if c = '\x1B' then ansiSubEGo (some (.esc, [c])) cs
                 else c :: ansiSubEGo none cs)
    | .params =>
      if isParamByte c then ansiSubEGo (some (.params, p ++ [c])) cs
      else if isInterByte c then ansiSubEGo (some (.inters, p ++ [c])) cs
      else if isFinalByte c then ansiSubEGo none cs
      else p ++ (if c = '\x1B' then ansiSubEGo (some (.esc, [c])) cs
                 else c :: ansiSubEGo none cs)
    | .inters =>
      if isInterByte c then ansiSubEGo (some (.inters, p ++ [c])) cs
      else if isFinalByte c then ansiSubEGo none cs
      else p ++ (if c = '\x1B' then ansiSubEGo (some (.esc, [c])) cs
                 else c :: ansiSubEGo none cs)

/-- ANSI escape removal of `extract_rx_data` (line 75). -/
def ansiStripE (s : List Char) : List Char := ansiSubEGo none s

/-!
`re.sub(r'\x1B\[?.*?[a-zA-Z]', '', response)` (line 338, `clean_response`).
A match at an `\x1B` consumes up to and including the first ASCII letter
after it, provided no `'\n'` intervenes (lazy `.*?` cannot cross `'\n'`,
and giving up the optional `[` cannot help since `[` is not a letter).
While an attempt is open, every consumed character is a non-letter, so no
alternative match can start inside the pending characters except at a later
`\x1B`, and such an attempt would be stopped by the same `'\n'`; hence on
failure the pending text is emitted verbatim and scanning resumes at the
failing character.
-/

/-- One-pass `re.sub` of `\x1B\[?.*?[a-zA-Z]` with `''`;
`some p` is an open attempt with pending characters `p`. -/
def ansiSubCleanGo : Option (List Char) → List Char → List Char
  | none, [] => []
  | some p, [] => p
  | none, c :: cs =>
    if c = '\x1B' then ansiSubCleanGo (some [c]) cs
    else c :: ansiSubCleanGo none cs
  | some p, c :: cs =>
    if isAsciiAlpha c then ansiSubCleanGo none cs
    else if c = '\n' then p ++ '\n' :: ansiSubCleanGo none cs
    else ansiSubCleanGo (some (p ++ [c])) cs

/-- ANSI escape removal of `clean_response` (line 338). -/
def ansiSubClean (s : List Char) : List Char := ansiSubCleanGo none s

/-!
`re.findall(r'0x[0-9A-Fa-f]+', s)` (lines 84 and 341): scan left to right;
at each position a match is `0x` followed by a maximal nonempty run of hex
digits; after a match the scan resumes at the match end, otherwise it
advances by one character.  This is the deterministic automaton below: it
remembers whether the last characters seen could be the `0`/`0x` of a match
start, and while inside a digit run it extends it greedily.
-/

/-- State of the `0x[0-9A-Fa-f]+` scan; `tok ds` holds the digits seen so
far, in reverse order. -/
inductive HexSt
  | idle | zero | zeroX | tok (ds : List Char)
deriving DecidableEq

/-- The token emitted for a digit run `ds` (reversed). -/
def emitTok (ds : List Char) : List Char := '0' :: 'x' :: ds.reverse

/-- The `0x[0-9A-Fa-f]+` scan itself. -/
def hexScan : HexSt → List Char → List (List Char)
  | .idle, [] => []
  | .zero, [] => []
  | .zeroX, [] => []
  | .tok ds, [] => [emitTok ds]
  | .idle, c :: cs => if c = '0' then hexScan .zero cs else hexScan .idle cs
  | .zero, c :: cs =>
    if c = 'x' then hexScan .zeroX cs
    else if c = '0' then hexScan .zero cs
    else hexScan .idle cs
  | .zeroX, c :: cs =>
    if isHexDigit c then hexScan (.tok [c]) cs
    else if c = '0' then hexScan .zero cs
    else hexScan .idle cs
  | .tok ds, c :: cs =>
    if isHexDigit c then hexScan (.tok (c :: ds)) cs
    else emitTok ds :: (if c = '0' then hexScan .zero cs else hexScan .idle cs)

/-- `re.findall(r'0x[0-9A-Fa-f]+', s)`. -/
def findHexTokens (s : List Char) : List (List Char) := hexScan .idle s

/-- Shape of a token the scan can produce: `0x` then a nonempty hex run. -/
def isWfTok : List Char → Bool
  | a :: b :: ds => a = '0' && b = 'x' && !ds.isEmpty && ds.all isHexDigit
  | _ => false

/-- A `0x`+hex-digit match begins at the head of `s`. -/
def tokAt : List Char → Bool
  | a :: b :: d :: _ => a = '0' && b = 'x' && isHexDigit d
  | _ => false

/-- A match could continue at `s` after a lone `0` was seen. -/
def xHexAt : List Char → Bool
  | b :: d :: _ => b = 'x' && isHexDigit d
  | _ => false

/-- The head of `s` is a hex digit. -/
def hexAt : List Char → Bool
  | d :: _ => isHexDigit d
  | _ => false

/-- Link between a scan state and the rest of the input on token-free
text: the pending prefix cannot be completed into a token. -/
def hexStPre : HexSt → List Char → Prop
  | .idle, _ => True
  | .zero, s => xHexAt s = false
  | .zeroX, s => hexAt s = false
  | .tok _, _ => False

/-- Invariant of the digit store of a scan state. -/
def hexStInv : HexSt → Prop
  | .tok ds => ds ≠ [] ∧ ∀ c ∈ ds, isHexDigit c = true
  | _ => True

/-!
`re.findall(r'RX:\s*(0x[0-9A-Fa-f].*(?:\s0x[0-9A-Fa-f]+)*)', response)`
(line 78).  It is applied after line 76, so `response` contains no newline;
then the greedy `.*` runs to the end of the string and the trailing group
iterates zero times, so the first match's group is the suffix starting at
the first `0x`+hex-digit that follows an `RX:` and optional whitespace.
-/

/-- Attempt the `RX:` field-marker match at the head of `s`; on success
return the regex group, i.e. the suffix starting at the `0x`. -/
def rxTail (s : List Char) : Option (List Char) :=
  match s with
  | a :: b :: c :: rest =>
    if a = 'R' ∧ b = 'X' ∧ c = ':' then
      match rest.dropWhile isPySpace with
      | p :: q :: d :: ds =>
        if p = '0' ∧ q = 'x' ∧ isHexDigit d = true then some (p :: q :: d :: ds)
        else none
      | _ => none
    else none
  | _ => none

/-- Leftmost `RX:` field-marker match in `s` (line 78). -/
def findRxStart : List Char → Option (List Char)
  | [] => none
  | c :: cs =>
    match rxTail (c :: cs) with
    | some r => some r
    | none => findRxStart cs

/-- Lines 75–76 of `extract_rx_data`: ANSI stripping then whitespace
normalization. -/
def scrubE (s : List Char) : List Char := normWs (ansiStripE s)

/-- `extract_rx_data` (lines 70–90): scrub, find the first `RX:` marker,
and return all hex tokens from there to the end; `none` when no marker
with a following hex token exists. -/
def extract_rx_data (s : List Char) : Option (List (List Char)) :=
  match findRxStart (scrubE s) with
  | some grp => some (findHexTokens grp)
  | none => none

/-!
`re.sub(r'(\s*3\.[23]V\s*)+', '', response)` (line 340).  Inside one group
the classes `\s`, the literals `3` `.` `V` and `[23]` leave no room for
backtracking; the `+` iterates greedily and a failed next iteration cannot
be rescued (whitespace handed back cannot become a `3`).  So one group
matches iff after optional whitespace the literal `3.2V` or `3.3V` follows,
consuming trailing whitespace greedily.
-/

/-- One `\s*3\.[23]V\s*` group at the head of `s`; on success return the
rest of the input. -/
def matchVoltGroup (s : List Char) : Option (List Char) :=
  match s.dropWhile isPySpace with
  | a :: b :: d :: e :: rest =>
    if a = '3' ∧ b = '.' ∧ (d = '2' ∨ d = '3') ∧ e = 'V' then
      some (rest.dropWhile isPySpace)
    else none
  | _ => none

/-- Consume further `\s*3\.[23]V\s*` groups (the greedy `+`); each group
consumes at least four characters, so fuel `s.length` is never exhausted. -/
def voltPlusRestF : Nat → List Char → List Char
  | 0, s => s
  | fuel + 1, s =>
    match matchVoltGroup s with
    | some t => voltPlusRestF fuel t
    | none => s

/-- `re.sub(r'(\s*3\.[23]V\s*)+', '', s)`: delete each leftmost maximal
match; each step consumes at least one character, so fuel `s.length`
suffices. -/
def voltSubF : Nat → List Char → List Char
  | 0, s => s
  | fuel + 1, s =>
    match s with
    | [] => []
    | c :: cs =>
      match matchVoltGroup (c :: cs) with
      | some t => voltSubF fuel (voltPlusRestF t.length t)
      | none => c :: voltSubF fuel cs

/-- Voltage-reading removal of `clean_response` (line 340). -/
def voltSub (s : List Char) : List Char := voltSubF s.length s

/-- The fallback string of `clean_response` (line 342). -/
def noData : List Char := "No Data".toList

/-- `clean_response` (lines 336–342): strip ANSI sequences, drop `\r`,
turn `\n` into spaces, delete voltage readings, and return the hex tokens
joined by single spaces, or `"No Data"` when there are none. -/
def clean_response (s : List Char) : List Char :=
  let s1 := ansiSubClean s
  let s2 := (s1.filter (fun c => c ≠ '\r')).map (fun c => if c = '\n' then ' ' else c)
  let s3 := voltSub s2
  let toks := findHexTokens s3
  if toks = [] then noData else joinSpace toks

/-- `int(tok, 16)` for the extracted `0x…` tokens. -/
def hexVal (t : List Char) : Nat :=
  let ds := match t with
    | '0' :: 'x' :: rest => rest
    | _ => t
  ds.foldl (fun a c => 16 * a + hexDigitVal c) 0

/-- Outcome of `read_sensor_data` on one captured response text: `err` is
the `return None` path (lines 130–132), `crash` is the uncaught
`IndexError` of `sensor_bytes[3]`/`[4]`/`[5]` (line 142) when fewer than
six values were extracted, `ok` carries the assembled `adc_T`. -/
inductive SensorResult
  | err
  | crash
  | ok (adc : Nat)
deriving DecidableEq

/-- Lines 129–148 of `read_sensor_data`, as a function of the raw response
text captured for the `[0xEFr:8]` command. -/
def read_sensor_from_response (resp : List Char) : SensorResult :=
  match extract_rx_data resp with
  | none => .err
  | some toks =>
    let bs := (toks.take 8).map hexVal
    match bs[3]?, bs[4]?, bs[5]? with
    | some b3, some b4, some b5 => .ok (((b3 <<< 16) ||| (b4 <<< 8) ||| b5) >>> 4)
    | _, _, _ => .crash

/-- Lines 162–175 of `read_calibration_data`, as a function of the raw
response text for the `[0xEFr:6]` command: `none` is the `return False`
path, `some` carries `(dig_T1, dig_T2, dig_T3)` exactly as stored. -/
def read_calibration_from_response (resp : List Char) : Option (Nat × Nat × Nat) :=
  match extract_rx_data resp with
  | none => none
  | some toks =>
    if toks.length < 6 then none
    else
      match (toks.take 6).map hexVal with
      | [b0, b1, b2, b3, b4, b5] =>
        some ((b1 <<< 8) ||| b0, (b3 <<< 8) ||| b2, (b5 <<< 8) ||| b4)
      | _ => none

/-- Python `>>` on unbounded ints: arithmetic shift = floor division. -/
def pyShr (x : Int) (n : Nat) : Int := Int.fdiv x ((2 : Int) ^ n)

/-- Python `<<` on unbounded ints. -/
def pyShl (x : Int) (n : Nat) : Int := x * (2 : Int) ^ n

/-- Module-level state right after import (line 13):
`dig_T1 = dig_T2 = dig_T3 = 0`. -/
def initial_dig : Int × Int × Int := (0, 0, 0)

/-- The compensation pipeline of `read_temperature` (lines 191–194),
producing `temp` in centi-degrees Celsius; line 195 divides it by 100.0
for the reported temperature. -/
def read_temperature_calc (t1 t2 t3 adc : Int) : Int :=
  let var1 := pyShr ((pyShr adc 3 - pyShl t1 1) * t2) 11
  let var2 := pyShr (pyShr ((pyShr adc 4 - t1) * (pyShr adc 4 - t1)) 12 * t3) 14
  let t_fine := var1 + var2
  pyShr (t_fine * 5 + 128) 8

/-- Modelled from the spec: the claim's signed 16-bit (two's-complement
`i16`) reading of a 16-bit pattern.  The source itself performs no such
conversion; this definition only states what the claim asks for. -/
def int16OfBits (n : Nat) : Int :=
  if n < 32768 then (n : Int) else (n : Int) - 65536

/-!
`re.match(r'^\s*(\d+\.\d+V\s*)+$', chunk)` (line 56, `send_command`).
Anchored at both ends; the classes and literals inside one group admit no
useful backtracking (whitespace handed back can never become a digit, a
digit handed back can never become `.` or `V`), so the whole string matches
exactly when the deterministic automaton below consumes it and stops right
after a `V` or its trailing whitespace.
-/

/-- States for the `^\s*(\d+\.\d+V\s*)+$` automaton. -/
inductive VG
  | start | int1 | frac0 | frac1 | afterV | fail
deriving DecidableEq, BEq

/-- Transition of the `^\s*(\d+\.\d+V\s*)+$` automaton: `start` is the
leading `\s*`, `int1` is inside the integer digit run `\d+`, `frac0` has
seen the `.` but no fractional digit yet (the `\d+` after the dot still
owes one digit, so `V` is rejected there), `frac1` is inside the
fractional digit run, and `afterV` is after a `V` inside the trailing
`\s*`, where the next group may begin. -/
def vgStep : VG → Char → VG
  | .start, c => if isPySpace c then .start else if isDigitB c then .int1 else .fail
  | .int1, c => if isDigitB c then .int1 else if c = '.' then .frac0 else .fail
  | .frac0, c => if isDigitB c then .frac1 else .fail
  | .frac1, c =>
    if isDigitB c then .frac1
    else if c = 'V' then .afterV
    else .fail
  | .afterV, c =>
    if isPySpace c then .afterV else if isDigitB c then .int1 else .fail
  | .fail, _ => .fail

/-- Whole-chunk voltage match of `send_command` (line 56): accept exactly
in `afterV`, i.e. after at least one complete `\d+\.\d+V` group (reached
only through `frac1`, which guarantees a fractional digit) with nothing
but whitespace left, so the automaton accepts exactly the pattern's
language. -/
def voltGenFull (s : List Char) : Bool :=
  (s.foldl vgStep VG.start) == VG.afterV

/-- States for the `^\s*(3\.[23]V\s*)+$` automaton (line 315, `i2c_read`). -/
inductive VS
  | start | seen3 | seenDot | seenD | afterV | fail
deriving DecidableEq, BEq

/-- Transition of the `^\s*(3\.[23]V\s*)+$` automaton. -/
def vsStep : VS → Char → VS
  | .start, c => if isPySpace c then .start else if c = '3' then .seen3 else .fail
  | .seen3, c => if c = '.' then .seenDot else .fail
  | .seenDot, c => if c = '2' || c = '3' then .seenD else .fail
  | .seenD, c => if c = 'V' then .afterV else .fail
  | .afterV, c =>
    if isPySpace c then .afterV else if c = '3' then .seen3 else .fail
  | .fail, _ => .fail

/-- Whole-chunk voltage match of `i2c_read` (line 315). -/
def voltSpecFull (s : List Char) : Bool :=
  (s.foldl vsStep VS.start) == VS.afterV

/-- Python `"GND" in chunk` (line 56). -/
def containsGND : List Char → Bool
  | [] => false
  | 'G' :: 'N' :: 'D' :: _ => true
  | _ :: cs => containsGND cs

/-- Python `"I2C>" in chunk` (lines 61, 231, 271). -/
def containsI2C : List Char → Bool
  | [] => false
  | 'I' :: '2' :: 'C' :: '>' :: _ => true
  | _ :: cs => containsI2C cs

/-- Poll-loop bookkeeping: `idx` counts reads of the byte stream, `time` is
elapsed milliseconds.  Only the `time.sleep` calls advance the clock; the
reads and the regex work between them are treated as instantaneous, which
is the only idealization in the timing model. -/
structure PollSt where
  idx : Nat
  time : Nat
deriving DecidableEq

/-- The chunk the serial port yields at the n-th read of a scripted
stream; `[]` = nothing available at that poll. -/
def readAt (cs : List (List Char)) (i : Nat) : List Char := cs.getD i []

/-- The response loop of `send_command` (lines 52–63): the `while` runs
until the 3-second deadline; an iteration that captures or ignores no data
sleeps 0.05 s, a voltage/`GND` chunk is dropped by `continue`, which skips
the sleep, and the `I2C>` break also exits before the sleep.  The loop is
bounded by `fuel` for totality: at most 60 iterations sleep, and every
non-sleeping iteration consumes a scripted chunk, so
`fuel = cs.length + 61` is never exhausted. -/
def scLoop (cs : List (List Char)) (deadline : Nat) :
    Nat → PollSt → List (List Char) → List (List Char) × PollSt
  | 0, st, acc => (acc, st)
  | k + 1, st, acc =>
    if deadline ≤ st.time then (acc, st)
    else
      let chunk := pyStrip (readAt cs st.idx)
      if chunk = [] then scLoop cs deadline k ⟨st.idx + 1, st.time + 50⟩ acc
      else if voltGenFull chunk || containsGND chunk then
        scLoop cs deadline k ⟨st.idx + 1, st.time⟩ acc
      else if containsI2C chunk then (acc ++ [chunk], ⟨st.idx + 1, st.time⟩)
      else scLoop cs deadline k ⟨st.idx + 1, st.time + 50⟩ (acc ++ [chunk])

/-- `send_command` (lines 43–68) over a scripted byte stream: flush, write,
sleep `delay`, run the response loop, join the captured chunks with
newlines and strip.  The command text written does not influence the
scripted stream. -/
def send_command_model (cs : List (List Char)) (delayMs : Nat) (st : PollSt) :
    List Char × PollSt :=
  let r := scLoop cs (st.time + delayMs + 3000) (cs.length + 61)
    ⟨st.idx, st.time + delayMs⟩ []
  (pyStrip (joinWith '\n' r.1), r.2)

/-- `re.search(r'RX:\s*(0x[0-9A-Fa-f]+)', s)` (line 320): attempt at the
head of `s`; the group is `0x` plus the maximal (greedy `+`) hex-digit
run. -/
def rxTok (s : List Char) : Option (List Char) :=
  match s with
  | a :: b :: c :: rest =>
    if a = 'R' ∧ b = 'X' ∧ c = ':' then
      match rest.dropWhile isPySpace with
      | p :: q :: ds =>
        if p = '0' ∧ q = 'x' then
          if ds.takeWhile isHexDigit = [] then none
          else some ('0' :: 'x' :: ds.takeWhile isHexDigit)
        else none
      | _ => none
    else none
  | _ => none

/-- Leftmost `RX:\s*(0x[0-9A-Fa-f]+)` match in `s` (line 320). -/
def rxFirstToken : List Char → Option (List Char)
  | [] => none
  | c :: cs =>
    match rxTok (c :: cs) with
    | some t => some t
    | none => rxFirstToken cs

/-- One poll's effect on the accumulated response of `i2c_read`
(lines 312–317): empty and voltage chunks are dropped, otherwise the chunk
and a newline are appended. -/
def i2cAccStep (chunk resp : List Char) : List Char :=
  if chunk = [] then resp
  else if voltSpecFull chunk then resp
  else resp ++ chunk ++ ['\n']

/-- The accumulated `i2c_read` response after a given number of polls
starting at read index `idx`. -/
def i2cAccs (cs : List (List Char)) : Nat → List Char → Nat → List Char
  | _, resp, 0 => resp
  | idx, resp, k + 1 =>
    i2cAccs cs (idx + 1) (i2cAccStep (pyStrip (readAt cs idx)) resp) k

/-- The polling loop of `i2c_read` (lines 310–326): a 2-second window
polled every 0.1 s = 20 polls, sleeping before each read.  The regex
search runs only when a chunk was appended, and the loop returns its group
as soon as the accumulated response contains an `RX:` marker followed by a
hex value. -/
def i2cLoop (cs : List (List Char)) : Nat → PollSt → List Char →
    Option (List Char) × PollSt
  | 0, st, _ => (none, st)
  | k + 1, st, resp =>
    let chunk := pyStrip (readAt cs st.idx)
    let resp' := i2cAccStep chunk resp
    let st' : PollSt := ⟨st.idx + 1, st.time + 100⟩
    if chunk = [] then i2cLoop cs k st' resp'
    else if voltSpecFull chunk then i2cLoop cs k st' resp'
    else
      match rxFirstToken resp' with
      | some v => (some v, st')
      | none => i2cLoop cs k st' resp'

/-- `i2c_read` (lines 300–334): flush, send the `[0xAAr:N]` command via
`send_command` with a 0.2 s delay, then poll for the `RX:` value for up to
2 seconds.  `address` and `numBytes` only shape the command text sent to
the bridge; the reply is the scripted stream `f`.  Returns the extracted
value (`none` is the timeout error path, lines 328–332) and the total
elapsed milliseconds since the call started. -/
def i2c_read_model (cs : List (List Char)) (_address _numBytes : Nat) :
    Option (List Char) × Nat :=
  let r1 := send_command_model cs 200 ⟨0, 0⟩
  let r2 := i2cLoop cs 20 r1.2 []
  (r2.1, r2.2.time)

/-- The retry loop of `initialize_bus_pirate` (lines 208–215) over scripted
reads: each attempt writes one blank line then reads; returns the number
of blank-line writes performed by the loop and the first nonempty stripped
response (or `[]`). -/
def wakeAttempts (reads : List (List Char)) : Nat → Nat → Nat × List Char
  | _, 0 => (0, [])
  | i, k + 1 =>
    let resp := pyStrip (readAt reads i)
    if resp = [] then
      let r := wakeAttempts reads (i + 1) k
      (r.1 + 1, r.2)
    else (1, resp)

/-- Lines 203–223 of `initialize_bus_pirate`: the initial wake write
(line 204), the 5-attempt retry loop, and the give-up check (lines
220–223) that closes the port and returns no session.  Result: the total
number of blank-line wake writes performed, and `none` when initialization
fails because no response was ever received. -/
def init_bus_pirate_wake (reads : List (List Char)) : Nat × Option (List Char) :=
  let r := wakeAttempts reads 0 5
  (r.1 + 1, if pyStrip r.2 = [] then none else some r.2)

/-- A scripted stream that never yields any bytes. -/
def stallStream : List (List Char) := []

/-- A scripted stream: the first read returns the bus prompt, the second a
two-value response field. -/
def promptThenRx : List (List Char) := ["I2C>".toList, "RX: 0x12 0x34".toList]

/-- The calibration response whose signed reading is the spec's reference
vector `t1 = 27504, t2 = 26435, t3 = -1000`. -/
def calibResp : List Char := "RX: 0x70 0x6B 0x43 0x67 0x18 0xFC".toList

/-- A sensor-read response whose field holds six hex values, two short of
the eight requested by `[0xEFr:8]`. -/
def sixByteResp : List Char := "RX: 0x01 0x02 0x03 0x04 0x05 0x06".toList

/-! ### Helper lemmas about the hex-token scan -/

theorem dropWhile_app_all (p : Char → Bool) (l₁ l₂ : List Char)
    (h : ∀ c ∈ l₁, p c = true) :
    (l₁ ++ l₂).dropWhile p = l₂.dropWhile p := by
  induction l₁ with
  | nil => rfl
  | cons c l ih =>
    rw [List.cons_append, List.dropWhile_cons, if_pos (h c (by simp))]
    exact ih fun d hd => h d (by simp [hd])

theorem tokAt_zero_cons (cs : List Char) : tokAt ('0' :: cs) = xHexAt cs := by
  rcases cs with _ | ⟨b, _ | ⟨d, rest⟩⟩ <;> simp [tokAt, xHexAt]

theorem xHexAt_x_cons (cs : List Char) : xHexAt ('x' :: cs) = hexAt cs := by
  rcases cs with _ | ⟨d, rest⟩ <;> simp [xHexAt, hexAt]

theorem noTok_of_bounded (post : List Char)
    (h : ∀ i < post.length, tokAt (post.drop i) = false) :
    ∀ i, tokAt (post.drop i) = false := by
  intro i
  by_cases hi : i < post.length
  · exact h i hi
  · rw [List.drop_eq_nil_of_le (le_of_not_lt hi)]; rfl

theorem hexScan_no_tok (s : List Char) :
    ∀ st, hexStPre st s → (∀ i, tokAt (s.drop i) = false) → hexScan st s = [] := by
  induction s with
  | nil =>
    intro st hpre _
    cases st with
    | idle => rfl
    | zero => rfl
    | zeroX => rfl
    | tok ds => exact absurd hpre (by simp [hexStPre])
  | cons c cs ih =>
    intro st hpre hno
    have hno' : ∀ i, tokAt (cs.drop i) = false := fun i => hno (i + 1)
    have h0 := hno 0
    simp only [List.drop_zero] at h0
    cases st with
    | idle =>
      by_cases h : c = '0'
      · subst h
        rw [tokAt_zero_cons] at h0
        simp only [hexScan, if_pos rfl]
        exact ih .zero h0 hno'
      · simp only [hexScan, if_neg h]
        exact ih .idle trivial hno'
    | zero =>
      by_cases hx : c = 'x'
      · subst hx
        have hpre' : xHexAt ('x' :: cs) = false := hpre
        rw [xHexAt_x_cons] at hpre'
        simp only [hexScan, if_pos rfl]
        exact ih .zeroX hpre' hno'
      · by_cases h0c : c = '0'
        · subst h0c
          rw [tokAt_zero_cons] at h0
          simp only [hexScan, if_neg hx, if_pos rfl]
          exact ih .zero h0 hno'
        · simp only [hexScan, if_neg hx, if_neg h0c]
          exact ih .idle trivial hno'
    | zeroX =>
      have hc : isHexDigit c = false := by simpa [hexStPre, hexAt] using hpre
      have hc0 : c ≠ '0' := by
        intro e; subst e; simp [isHexDigit] at hc
      simp only [hexScan, hc, if_neg hc0, Bool.false_eq_true, if_false]
      exact ih .idle trivial hno'
    | tok ds => exact absurd hpre (by simp [hexStPre])

theorem hexScan_tok_digits (ds : List Char) :
    (∀ c ∈ ds, isHexDigit c = true) → ∀ (r rest : List Char),
      hexScan (.tok r) (ds ++ rest) = hexScan (.tok (ds.reverse ++ r)) rest := by
  induction ds with
  | nil => intro _ r rest; simp
  | cons d ds ih =>
    intro hds r rest
    have hd : isHexDigit d = true := hds d (by simp)
    simp only [List.cons_append]
    rw [show hexScan (.tok r) (d :: (ds ++ rest)) = hexScan (.tok (d :: r)) (ds ++ rest) from by
      simp [hexScan, hd]]
    rw [ih (fun c hc => hds c (by simp [hc])) (d :: r) rest]
    simp

theorem hexScan_step_idle0 (cs : List Char) :
    hexScan .idle ('0' :: cs) = hexScan .zero cs := by simp [hexScan]

theorem hexScan_step_zerox (cs : List Char) :
    hexScan .zero ('x' :: cs) = hexScan .zeroX cs := by simp [hexScan]

theorem hexScan_step_zeroXd (d : Char) (cs : List Char) (hd : isHexDigit d = true) :
    hexScan .zeroX (d :: cs) = hexScan (.tok [d]) cs := by simp [hexScan, hd]

theorem hexScan_step_tok_end (ds : List Char) (c : Char) (cs : List Char)
    (hc : isHexDigit c = false) (hc0 : c ≠ '0') :
    hexScan (.tok ds) (c :: cs) = emitTok ds :: hexScan .idle cs := by
  simp [hexScan, hc, hc0]

theorem emitTok_rev (ds : List Char) (d : Char) :
    emitTok (ds.reverse ++ [d]) = '0' :: 'x' :: d :: ds := by
  simp [emitTok]

theorem isWfTok_shape (t : List Char) (h : isWfTok t = true) :
    ∃ d ds, t = '0' :: 'x' :: d :: ds ∧ isHexDigit d = true ∧
      ∀ c ∈ d :: ds, isHexDigit c = true := by
  rcases t with _ | ⟨a, _ | ⟨b, ds⟩⟩
  · simp [isWfTok] at h
  · simp [isWfTok] at h
  · simp only [isWfTok, Bool.and_eq_true, decide_eq_true_eq, List.all_eq_true,
      Bool.not_eq_true'] at h
    obtain ⟨⟨⟨ha, hb⟩, hne⟩, hall⟩ := h
    subst ha; subst hb
    rcases ds with _ | ⟨d, ds'⟩
    · simp at hne
    · exact ⟨d, ds', rfl, hall d (by simp), hall⟩

theorem hexScan_join (toks : List (List Char)) (post : List Char)
    (hw : ∀ t ∈ toks, isWfTok t = true)
    (hno : ∀ i, tokAt (post.drop i) = false)
    (hhead : hexAt post = false) :
    hexScan .idle (joinSpace toks ++ post) = toks := by
  induction toks with
  | nil =>
    show hexScan .idle (joinSpace [] ++ post) = []
    rw [show joinSpace [] = [] from rfl, List.nil_append]
    exact hexScan_no_tok post .idle trivial hno
  | cons t ts ih =>
    obtain ⟨d, ds, ht, hd, hall⟩ := isWfTok_shape t (hw t (by simp))
    have hall' : ∀ c ∈ ds, isHexDigit c = true := fun c hc => hall c (by simp [hc])
    cases ts with
    | nil =>
      subst ht
      rw [show joinSpace ['0' :: 'x' :: d :: ds] = '0' :: 'x' :: d :: ds from rfl]
      simp only [List.cons_append]
      rw [hexScan_step_idle0, hexScan_step_zerox, hexScan_step_zeroXd d _ hd,
        hexScan_tok_digits ds hall' [d] post]
      cases post with
      | nil =>
        show [emitTok (ds.reverse ++ [d])] = _
        rw [emitTok_rev]
      | cons c cs =>
        have hc : isHexDigit c = false := by simpa [hexAt] using hhead
        have hc0 : c ≠ '0' := by intro e; subst e; simp [isHexDigit] at hc
        rw [hexScan_step_tok_end _ c cs hc hc0, emitTok_rev]
        rw [hexScan_no_tok cs .idle trivial (fun i => hno (i + 1))]
    | cons t' ts' =>
      subst ht
      rw [show joinSpace (('0' :: 'x' :: d :: ds) :: t' :: ts')
          = ('0' :: 'x' :: d :: ds) ++ ' ' :: joinSpace (t' :: ts') from rfl]
      rw [List.append_assoc]
      simp only [List.cons_append]
      rw [hexScan_step_idle0, hexScan_step_zerox, hexScan_step_zeroXd d _ hd,
        hexScan_tok_digits ds hall' [d] (' ' :: (joinSpace (t' :: ts') ++ post))]
      rw [hexScan_step_tok_end _ ' ' _ (by decide) (by decide), emitTok_rev]
      rw [ih (fun u hu => hw u (by simp [hu]))]

theorem emitTok_wf (ds : List Char) (h1 : ds ≠ [])
    (h2 : ∀ c ∈ ds, isHexDigit c = true) : isWfTok (emitTok ds) = true := by
  rcases hr : ds.reverse with _ | ⟨a, rest⟩
  · exact absurd (by simpa using congrArg List.reverse hr) h1
  · have hmem : ∀ c ∈ a :: rest, isHexDigit c = true := by
      intro c hc
      have : c ∈ ds.reverse := by rw [hr]; exact hc
      exact h2 c (List.mem_reverse.mp this)
    simp [emitTok, hr, isWfTok, List.all_eq_true]
    exact ⟨hmem a (by simp), fun c hc => hmem c (by simp [hc])⟩

theorem hexScan_wf (s : List Char) :
    ∀ st, hexStInv st → ∀ t ∈ hexScan st s, isWfTok t = true := by
  induction s with
  | nil =>
    intro st hst t ht
    cases st with
    | idle => simp [hexScan] at ht
    | zero => simp [hexScan] at ht
    | zeroX => simp [hexScan] at ht
    | tok ds =>
      simp only [hexScan, List.mem_singleton] at ht
      subst ht
      exact emitTok_wf ds hst.1 hst.2
  | cons c cs ih =>
    intro st hst t ht
    cases st with
    | idle =>
      by_cases h : c = '0' <;> simp only [hexScan, h, if_pos, if_neg, reduceIte] at ht
      · exact ih .zero trivial t ht
      · exact ih .idle trivial t ht
    | zero =>
      by_cases hx : c = 'x'
      · simp only [hexScan, hx, reduceIte] at ht
        exact ih .zeroX trivial t ht
      · by_cases h0 : c = '0' <;>
          simp only [hexScan, hx, h0, reduceIte] at ht
        · exact ih .zero trivial t ht
        · exact ih .idle trivial t ht
    | zeroX =>
      by_cases hc : isHexDigit c = true
      · simp only [hexScan, hc, reduceIte] at ht
        exact ih (.tok [c]) ⟨by simp, by simp [hc]⟩ t ht
      · by_cases h0 : c = '0'
        · subst h0; simp [isHexDigit] at hc
        · simp only [hexScan, hc, h0, reduceIte, Bool.false_eq_true, if_false] at ht
          exact ih .idle trivial t ht
    | tok ds =>
      by_cases hc : isHexDigit c = true
      · simp only [hexScan, hc, reduceIte] at ht
        exact ih (.tok (c :: ds)) ⟨by simp, by
          intro u hu
          rcases List.mem_cons.mp hu with h | h
          · subst h; exact hc
          · exact hst.2 u h⟩ t ht
      · simp only [hexScan, hc, Bool.false_eq_true, if_false] at ht
        rcases List.mem_cons.mp ht with h | h
        · subst h; exact emitTok_wf ds hst.1 hst.2
        · by_cases h0 : c = '0' <;> simp only [h0, reduceIte] at h
          · exact ih .zero trivial t h
          · exact ih .idle trivial t h

theorem hexScan_tok_ne_nil (s : List Char) : ∀ ds, hexScan (.tok ds) s ≠ [] := by
  induction s with
  | nil => intro ds; simp [hexScan]
  | cons c cs ih =>
    intro ds
    by_cases h : isHexDigit c = true
    · simp only [hexScan, h, reduceIte]
      exact ih (c :: ds)
    · simp [hexScan, h]

/-! ### Helper lemmas about the RX-marker scanners -/

theorem findRxStart_at (k : Nat) : ∀ (s r : List Char),
    rxTail (s.drop k) = some r → (∀ j < k, rxTail (s.drop j) = none) →
    findRxStart s = some r := by
  induction k with
  | zero =>
    intro s r hk _
    rw [List.drop_zero] at hk
    cases s with
    | nil => simp [rxTail] at hk
    | cons c cs => simp [findRxStart, hk]
  | succ k ih =>
    intro s r hk hbefore
    cases s with
    | nil => rw [List.drop_nil] at hk; simp [rxTail] at hk
    | cons c cs =>
      have h0 : rxTail (c :: cs) = none := by
        have := hbefore 0 (Nat.succ_pos k)
        rwa [List.drop_zero] at this
      simp only [findRxStart, h0]
      exact ih cs r hk fun j hj => hbefore (j + 1) (Nat.succ_lt_succ hj)

theorem findRxStart_none_iff (s : List Char) :
    findRxStart s = none ↔ ∀ i, rxTail (s.drop i) = none := by
  induction s with
  | nil =>
    simp only [findRxStart, List.drop_nil, true_iff]
    intro i; rfl
  | cons c cs ih =>
    constructor
    · intro h i
      cases hr : rxTail (c :: cs) with
      | some r => simp [findRxStart, hr] at h
      | none =>
        cases i with
        | zero => simpa using hr
        | succ i =>
          have h' : findRxStart cs = none := by simpa [findRxStart, hr] using h
          exact (ih.mp h') i
    · intro h
      have h0 : rxTail (c :: cs) = none := by simpa using h 0
      simp only [findRxStart, h0]
      exact ih.mpr fun i => by simpa using h (i + 1)

theorem rxTail_some_shape (u r : List Char) (h : rxTail u = some r) :
    ∃ d rest, r = '0' :: 'x' :: d :: rest ∧ isHexDigit d = true := by
  rcases u with _ | ⟨a, _ | ⟨b, _ | ⟨c, rest⟩⟩⟩
  · simp [rxTail] at h
  · simp [rxTail] at h
  · simp [rxTail] at h
  · rcases hdw : rest.dropWhile isPySpace with _ | ⟨p, _ | ⟨q, _ | ⟨d, ds⟩⟩⟩ <;>
      (simp only [rxTail, hdw] at h; split_ifs at h)
    all_goals try simp at h
    rename_i h1 h2
    obtain ⟨hp, hq, hd⟩ := h2
    subst hp; subst hq
    exact ⟨d, ds, h.symm, hd⟩

theorem findRxStart_some_shape (s : List Char) : ∀ r, findRxStart s = some r →
    ∃ d rest, r = '0' :: 'x' :: d :: rest ∧ isHexDigit d = true := by
  induction s with
  | nil => intro r h; simp [findRxStart] at h
  | cons c cs ih =>
    intro r h
    cases hr : rxTail (c :: cs) with
    | some r' =>
      rw [show findRxStart (c :: cs) = some r' from by simp [findRxStart, hr]] at h
      exact rxTail_some_shape (c :: cs) r (hr.trans h)
    | none =>
      rw [show findRxStart (c :: cs) = findRxStart cs from by simp [findRxStart, hr]] at h
      exact ih r h

/-! ### Identity of the scrubbing passes on clean text -/

theorem ansiSubCleanGo_none_id (s : List Char) (h : ∀ c ∈ s, c ≠ '\x1B') :
    ansiSubCleanGo none s = s := by
  induction s with
  | nil => rfl
  | cons c cs ih =>
    have hc : c ≠ '\x1B' := h c (by simp)
    simp only [ansiSubCleanGo, if_neg hc]
    rw [ih fun d hd => h d (by simp [hd])]

theorem filter_ne_id (s : List Char) (a : Char) (h : a ∉ s) :
    s.filter (fun c => c ≠ a) = s := by
  induction s with
  | nil => rfl
  | cons c cs ih =>
    have hc : c ≠ a := fun e => h (by simp [e])
    simp only [List.filter_cons]
    rw [if_pos (by simp [hc]), ih fun hm => h (by simp [hm])]

theorem map_if_id (s : List Char) (h : '\n' ∉ s) :
    s.map (fun c => if c = '\n' then ' ' else c) = s := by
  induction s with
  | nil => rfl
  | cons c cs ih =>
    have hc : c ≠ '\n' := fun e => h (by simp [e])
    simp only [List.map_cons, if_neg hc]
    rw [ih fun hm => h (by simp [hm])]

theorem matchVoltGroup_dot (s t : List Char) (h : matchVoltGroup s = some t) :
    '.' ∈ s := by
  rcases hdw : s.dropWhile isPySpace with _ | ⟨a, _ | ⟨b, _ | ⟨d, _ | ⟨e, rest⟩⟩⟩⟩ <;>
    simp only [matchVoltGroup, hdw] at h
  · simp at h
  · simp at h
  · simp at h
  · simp at h
  · split_ifs at h with h1
    obtain ⟨_, hb, _⟩ := h1
    subst hb
    have hmem : '.' ∈ s.dropWhile isPySpace := by rw [hdw]; simp
    exact (List.dropWhile_sublist isPySpace).mem hmem

theorem voltSubF_id (fuel : Nat) : ∀ s : List Char, '.' ∉ s → voltSubF fuel s = s := by
  induction fuel with
  | zero => intro s _; rfl
  | succ fuel ih =>
    intro s h
    cases s with
    | nil => rfl
    | cons c cs =>
      have hg : matchVoltGroup (c :: cs) = none := by
        cases hm : matchVoltGroup (c :: cs) with
        | none => rfl
        | some t => exact absurd (matchVoltGroup_dot _ t hm) h
      simp only [voltSubF, hg]
      rw [ih cs fun hm => h (by simp [hm])]

theorem voltSub_id (s : List Char) (h : '.' ∉ s) : voltSub s = s :=
  voltSubF_id s.length s h

/-! ### The output alphabet of `clean_response` -/

theorem mem_joinSpace (ts : List (List Char)) (c : Char) (h : c ∈ joinSpace ts) :
    c = ' ' ∨ ∃ t ∈ ts, c ∈ t := by
  induction ts with
  | nil => simp [joinSpace, joinWith] at h
  | cons t ts ih =>
    cases ts with
    | nil => exact Or.inr ⟨t, by simp, by simpa [joinSpace, joinWith] using h⟩
    | cons t' ts' =>
      rw [show joinSpace (t :: t' :: ts') = t ++ ' ' :: joinSpace (t' :: ts') from rfl] at h
      rcases List.mem_append.mp h with h | h
      · exact Or.inr ⟨t, by simp, h⟩
      · rcases List.mem_cons.mp h with h | h
        · exact Or.inl h
        · rcases ih h with h | ⟨u, hu, hc⟩
          · exact Or.inl h
          · exact Or.inr ⟨u, by simp [hu], hc⟩

theorem isWfTok_chars (t : List Char) (h : isWfTok t = true) (c : Char) (hc : c ∈ t) :
    c = '0' ∨ c = 'x' ∨ isHexDigit c = true := by
  obtain ⟨d, ds, rfl, _, hall⟩ := isWfTok_shape t h
  rcases List.mem_cons.mp hc with h1 | hc
  · exact Or.inl h1
  rcases List.mem_cons.mp hc with h1 | hc
  · exact Or.inr (Or.inl h1)
  exact Or.inr (Or.inr (hall c hc))

theorem safe_of_tok_char (c : Char) (h : c = '0' ∨ c = 'x' ∨ isHexDigit c = true) :
    c ≠ '\x1B' ∧ c ≠ '\r' ∧ c ≠ '\n' ∧ c ≠ '.' := by
  rcases h with rfl | rfl | h
  · exact ⟨by decide, by decide, by decide, by decide⟩
  · exact ⟨by decide, by decide, by decide, by decide⟩
  · refine ⟨?_, ?_, ?_, ?_⟩ <;> intro e <;> subst e <;> exact absurd h (by decide)

theorem joinSpace_safe (ts : List (List Char)) (hw : ∀ t ∈ ts, isWfTok t = true) :
    ∀ c ∈ joinSpace ts, c ≠ '\x1B' ∧ c ≠ '\r' ∧ c ≠ '\n' ∧ c ≠ '.' := by
  intro c hc
  rcases mem_joinSpace ts c hc with rfl | ⟨t, ht, hct⟩
  · exact ⟨by decide, by decide, by decide, by decide⟩
  · exact safe_of_tok_char c (isWfTok_chars t (hw t ht) c hct)

theorem clean_response_join_fixed (ts : List (List Char)) (h1 : ts ≠ [])
    (hw : ∀ t ∈ ts, isWfTok t = true) :
    clean_response (joinSpace ts) = joinSpace ts := by
  have hsafe := joinSpace_safe ts hw
  have e1 : ansiSubClean (joinSpace ts) = joinSpace ts :=
    ansiSubCleanGo_none_id _ fun c hc => (hsafe c hc).1
  have e2 : (joinSpace ts).filter (fun c => c ≠ '\r') = joinSpace ts :=
    filter_ne_id _ _ fun hm => (hsafe _ hm).2.1 rfl
  have e3 : (joinSpace ts).map (fun c => if c = '\n' then ' ' else c) = joinSpace ts :=
    map_if_id _ fun hm => (hsafe _ hm).2.2.1 rfl
  have e4 : voltSub (joinSpace ts) = joinSpace ts :=
    voltSub_id _ fun hm => (hsafe _ hm).2.2.2 rfl
  have e5 : findHexTokens (joinSpace ts) = ts := by
    have h := hexScan_join ts [] hw (fun i => by rw [List.drop_nil]; rfl) rfl
    rw [List.append_nil] at h
    exact h
  simp only [clean_response, ansiSubClean] at e1 ⊢
  rw [e1, e2, e3, e4, e5, if_neg h1]

/-! ### Helper lemmas about the `i2c_read` polling loop -/

theorem i2cAccStep_append (chunk resp : List Char) :
    i2cAccStep chunk resp = resp ++ i2cAccStep chunk [] := by
  unfold i2cAccStep
  split_ifs <;> simp

theorem i2cAccs_append (cs : List (List Char)) :
    ∀ (k idx : Nat) (resp : List Char),
      i2cAccs cs idx resp k = resp ++ i2cAccs cs idx [] k := by
  intro k
  induction k with
  | zero => intro idx resp; simp [i2cAccs]
  | succ k ih =>
    intro idx resp
    show i2cAccs cs (idx + 1) (i2cAccStep (pyStrip (readAt cs idx)) resp) k
      = resp ++ i2cAccs cs (idx + 1) (i2cAccStep (pyStrip (readAt cs idx)) []) k
    rw [ih (idx + 1) (i2cAccStep (pyStrip (readAt cs idx)) resp),
      ih (idx + 1) (i2cAccStep (pyStrip (readAt cs idx)) []),
      i2cAccStep_append, List.append_assoc]

theorem dropWhile_append_left (p : Char → Bool) (l u : List Char)
    (h : l.dropWhile p ≠ []) : (l ++ u).dropWhile p = l.dropWhile p ++ u := by
  induction l with
  | nil => exact absurd rfl h
  | cons c cs ih =>
    by_cases hc : p c = true
    · rw [List.cons_append, List.dropWhile_cons, if_pos hc]
      rw [List.dropWhile_cons, if_pos hc] at h ⊢
      exact ih h
    · rw [List.cons_append, List.dropWhile_cons, if_neg hc,
        List.dropWhile_cons, if_neg hc, List.cons_append]

theorem rxTok_append_isSome (s u : List Char) (h : (rxTok s).isSome) :
    (rxTok (s ++ u)).isSome := by
  rcases s with _ | ⟨a, _ | ⟨b, _ | ⟨c, rest⟩⟩⟩
  · simp [rxTok] at h
  · simp [rxTok] at h
  · simp [rxTok] at h
  · show (rxTok (a :: b :: c :: (rest ++ u))).isSome
    simp only [rxTok] at h ⊢
    by_cases h1 : a = 'R' ∧ b = 'X' ∧ c = ':'
    swap
    · rw [if_neg h1] at h; simp at h
    rw [if_pos h1] at h ⊢
    rcases hdw : rest.dropWhile isPySpace with _ | ⟨p, _ | ⟨q, ds⟩⟩ <;> rw [hdw] at h
    · simp at h
    · simp at h
    have hne : rest.dropWhile isPySpace ≠ [] := by rw [hdw]; simp
    rw [dropWhile_append_left isPySpace rest u hne, hdw]
    have h' : (if p = '0' ∧ q = 'x' then
        if ds.takeWhile isHexDigit = [] then none
        else some ('0' :: 'x' :: ds.takeWhile isHexDigit)
      else none).isSome := h
    show (if p = '0' ∧ q = 'x' then
        if (ds ++ u).takeWhile isHexDigit = [] then none
        else some ('0' :: 'x' :: (ds ++ u).takeWhile isHexDigit)
      else none).isSome
    by_cases h2 : p = '0' ∧ q = 'x'
    swap
    · rw [if_neg h2] at h'; simp at h'
    rw [if_pos h2] at h' ⊢
    by_cases h3 : ds.takeWhile isHexDigit = []
    · rw [if_pos h3] at h'; simp at h'
    rcases ds with _ | ⟨e, ds'⟩
    · simp at h3
    have he : isHexDigit e = true := by
      cases hee : isHexDigit e with
      | true => rfl
      | false => exact absurd (by simp [List.takeWhile_cons, hee]) h3
    rw [List.cons_append,
      if_neg (by simp [List.takeWhile_cons, he] :
        ¬(e :: (ds' ++ u)).takeWhile isHexDigit = [])]
    simp

theorem rxFirstToken_append_isSome (s u : List Char) (h : (rxFirstToken s).isSome) :
    (rxFirstToken (s ++ u)).isSome := by
  induction s with
  | nil => simp [rxFirstToken] at h
  | cons c cs ih =>
    rw [List.cons_append]
    cases hr : rxTok (c :: cs) with
    | some t =>
      have : (rxTok (c :: (cs ++ u))).isSome := by
        have := rxTok_append_isSome (c :: cs) u (by simp [hr])
        simpa using this
      cases hr2 : rxTok (c :: (cs ++ u)) with
      | none => rw [hr2] at this; simp at this
      | some t2 => simp [rxFirstToken, hr2]
    | none =>
      have hcs : (rxFirstToken cs).isSome := by
        simp only [rxFirstToken, hr] at h
        exact h
      cases hr2 : rxTok (c :: (cs ++ u)) with
      | none =>
        simp only [rxFirstToken, hr2]
        exact ih hcs
      | some t2 => simp [rxFirstToken, hr2]

theorem i2cLoop_none (cs : List (List Char)) :
    ∀ (k : Nat) (st : PollSt) (resp : List Char),
      rxFirstToken (i2cAccs cs st.idx resp k) = none →
      (i2cLoop cs k st resp).1 = none := by
  intro k
  induction k with
  | zero => intro st resp _; rfl
  | succ k ih =>
    intro st resp h
    have hacc : i2cAccs cs st.idx resp (k + 1)
        = i2cAccs cs (st.idx + 1) (i2cAccStep (pyStrip (readAt cs st.idx)) resp) k := rfl
    rw [hacc] at h
    have hresp' : rxFirstToken (i2cAccStep (pyStrip (readAt cs st.idx)) resp) = none := by
      cases hr : rxFirstToken (i2cAccStep (pyStrip (readAt cs st.idx)) resp) with
      | none => rfl
      | some v =>
        exfalso
        have h1 : (rxFirstToken (i2cAccs cs (st.idx + 1)
            (i2cAccStep (pyStrip (readAt cs st.idx)) resp) k)).isSome := by
          rw [i2cAccs_append]
          exact rxFirstToken_append_isSome _ _ (by simp [hr])
        rw [h] at h1
        simp at h1
    simp only [i2cLoop]
    split_ifs with hc hv
    · exact ih ⟨st.idx + 1, st.time + 100⟩ _ h
    · exact ih ⟨st.idx + 1, st.time + 100⟩ _ h
    · rw [hresp']
      exact ih ⟨st.idx + 1, st.time + 100⟩ _ h

theorem i2cLoop_finds (cs : List (List Char)) :
    ∀ (k : Nat) (st : PollSt) (resp : List Char) (j : Nat) (tk : List Char),
      j < k →
      rxFirstToken (i2cAccs cs st.idx resp (j + 1)) = some tk →
      (∀ m ≤ j, rxFirstToken (i2cAccs cs st.idx resp m) = none) →
      (i2cLoop cs k st resp).1 = some tk := by
  intro k
  induction k with
  | zero => intro st resp j tk hj _ _; exact absurd hj (Nat.not_lt_zero j)
  | succ k ih =>
    intro st resp j tk hj h1 h2
    cases j with
    | zero =>
      have hstep : i2cAccs cs st.idx resp 1
          = i2cAccStep (pyStrip (readAt cs st.idx)) resp := rfl
      rw [hstep] at h1
      have h0 : rxFirstToken resp = none := by
        have := h2 0 (le_refl 0)
        simpa [i2cAccs] using this
      simp only [i2cLoop]
      split_ifs with hc hv
      · exfalso
        rw [show i2cAccStep (pyStrip (readAt cs st.idx)) resp = resp from by
          simp [i2cAccStep, hc]] at h1
        rw [h0] at h1
        exact Option.noConfusion h1
      · exfalso
        rw [show i2cAccStep (pyStrip (readAt cs st.idx)) resp = resp from by
          simp [i2cAccStep, hc, hv]] at h1
        rw [h0] at h1
        exact Option.noConfusion h1
      · rw [h1]
    | succ j =>
      have hsh : ∀ m, i2cAccs cs st.idx resp (m + 1)
          = i2cAccs cs (st.idx + 1) (i2cAccStep (pyStrip (readAt cs st.idx)) resp) m :=
        fun m => rfl
      rw [hsh (j + 1)] at h1
      have h2' : ∀ m ≤ j, rxFirstToken (i2cAccs cs (st.idx + 1)
          (i2cAccStep (pyStrip (readAt cs st.idx)) resp) m) = none :=
        fun m hm => by rw [← hsh m]; exact h2 (m + 1) (Nat.succ_le_succ hm)
      have hstep1 : rxFirstToken (i2cAccStep (pyStrip (readAt cs st.idx)) resp) = none := by
        have := h2 1 (Nat.succ_le_succ (Nat.zero_le j))
        simpa [i2cAccs] using this
      simp only [i2cLoop]
      split_ifs with hc hv
      · exact ih ⟨st.idx + 1, st.time + 100⟩ _ j tk (Nat.lt_of_succ_lt_succ hj) h1 h2'
      · exact ih ⟨st.idx + 1, st.time + 100⟩ _ j tk (Nat.lt_of_succ_lt_succ hj) h1 h2'
      · rw [hstep1]
        exact ih ⟨st.idx + 1, st.time + 100⟩ _ j tk (Nat.lt_of_succ_lt_succ hj) h1 h2'

theorem i2cLoop_time_le (cs : List (List Char)) :
    ∀ (k : Nat) (st : PollSt) (resp : List Char),
      (i2cLoop cs k st resp).2.time ≤ st.time + 100 * k := by
  intro k
  induction k with
  | zero => intro st resp; simp [i2cLoop]
  | succ k ih =>
    intro st resp
    simp only [i2cLoop]
    split_ifs with hc hv
    · have h2 : (i2cLoop cs k ⟨st.idx + 1, st.time + 100⟩
          (i2cAccStep (pyStrip (readAt cs st.idx)) resp)).2.time
          ≤ st.time + 100 + 100 * k := ih _ _
      omega
    · have h2 : (i2cLoop cs k ⟨st.idx + 1, st.time + 100⟩
          (i2cAccStep (pyStrip (readAt cs st.idx)) resp)).2.time
          ≤ st.time + 100 + 100 * k := ih _ _
      omega
    · cases hr : rxFirstToken (i2cAccStep (pyStrip (readAt cs st.idx)) resp) with
      | some v =>
        show st.time + 100 ≤ st.time + 100 * (k + 1)
        omega
      | none =>
        have h2 : (i2cLoop cs k ⟨st.idx + 1, st.time + 100⟩
            (i2cAccStep (pyStrip (readAt cs st.idx)) resp)).2.time
            ≤ st.time + 100 + 100 * k := ih _ _
        show (i2cLoop cs k ⟨st.idx + 1, st.time + 100⟩
          (i2cAccStep (pyStrip (readAt cs st.idx)) resp)).2.time
          ≤ st.time + 100 * (k + 1)
        omega

theorem scLoop_time_le (cs : List (List Char)) (deadline : Nat) :
    ∀ (fuel : Nat) (st : PollSt) (acc : List (List Char)),
      st.time ≤ deadline + 50 →
      (scLoop cs deadline fuel st acc).2.time ≤ deadline + 50 := by
  intro fuel
  induction fuel with
  | zero => intro st acc h; exact h
  | succ fuel ih =>
    intro st acc h
    simp only [scLoop]
    split_ifs with hdl hc hv hbreak
    · exact h
    · exact ih ⟨st.idx + 1, st.time + 50⟩ acc
        (by show st.time + 50 ≤ deadline + 50; omega)
    · exact ih ⟨st.idx + 1, st.time⟩ acc h
    · show st.time ≤ deadline + 50
      omega
    · exact ih ⟨st.idx + 1, st.time + 50⟩ _
        (by show st.time + 50 ≤ deadline + 50; omega)

/-! ### The wake retry loop -/

theorem wakeAttempts_stall (reads : List (List Char))
    (h : ∀ i, readAt reads i = []) :
    ∀ (k i : Nat), wakeAttempts reads i k = (k, []) := by
  intro k
  induction k with
  | zero => intro i; rfl
  | succ k ih =>
    intro i
    show (if pyStrip (readAt reads i) = [] then
        ((wakeAttempts reads (i + 1) k).1 + 1, (wakeAttempts reads (i + 1) k).2)
      else (1, pyStrip (readAt reads i))) = (k + 1, [])
    rw [h i, if_pos (show pyStrip [] = [] from rfl), ih (i + 1)]

/-! ### Claim theorems -/

/-- C1: for calibration constants t1 = 27504, t2 = 26435, t3 = -1000
(taken as signed integers) and raw ADC sample 519888, the compensation
pipeline of `read_temperature` (lines 191–195) yields temp = 2508
centi-degrees, i.e. a temperature of 25.08 °C, within 0.01 of the Bosch
reference output 25.08 °C. -/
theorem compensation_reference_value :
    read_temperature_calc 27504 26435 (-1000) 519888 = 2508 ∧
    |((read_temperature_calc 27504 26435 (-1000) 519888 : ℚ) / 100) - 25.08| ≤ 0.01 := by
  have h : read_temperature_calc 27504 26435 (-1000) 519888 = 2508 := by decide
  refine ⟨h, ?_⟩
  rw [h]
  norm_num

/-- C2 counterexample: with the module-initial zero-filled calibration
constants (line 13) the compensation pipeline of `read_temperature` is
silently evaluated and produces the numeric temperature 0 centi-degrees
(0.00 °C) for the reference raw sample 519888; it does not fail with any
error — no UninitializedCalibrationError exists in the code. -/
theorem compensate_zero_calib_numeric :
    read_temperature_calc initial_dig.1 initial_dig.2.1 initial_dig.2.2 519888 = 0 := by
  decide

/-- C2 (amended): invoked before any successful calibration read, the
compensation step is silently evaluated with the zero-filled calibration
constants dig_T1 = dig_T2 = dig_T3 = 0 and produces the numeric
temperature 0 centi-degrees for every raw sample, rather than failing
with an UninitializedCalibrationError. -/
theorem compensate_uncalibrated_silent_zero (adc : Int) :
    read_temperature_calc initial_dig.1 initial_dig.2.1 initial_dig.2.2 adc = 0 := by
  show read_temperature_calc 0 0 0 adc = 0
  simp [read_temperature_calc, pyShr, pyShl, Int.zero_fdiv]

/-- C3: evaluating the calibration packing of `read_calibration_data`
(lines 173–175) on the 6-byte response 70 6B 43 67 18 FC: dig_T1 = 27504
and dig_T2 = 26435 agree with the claim, but dig_T3 is stored as the raw
unsigned pattern 64536 = 0xFC18 and not as its signed 16-bit
(two's-complement) reading -1000 that the claim (and the Bosch
compensation formula the code implements) requires. -/
theorem calibration_pack_unsigned_eval :
    read_calibration_from_response calibResp = some (27504, 26435, 64536) ∧
    int16OfBits 64536 = -1000 ∧ (64536 : Int) ≠ int16OfBits 64536 := by
  refine ⟨by decide, by decide, by decide⟩

/-- C4 counterexample: the already-scrubbed text "RX: 0x60 junk 0x11"
contains exactly one response field (the only RX-marker match is at index
0), whose contiguous hex-token run is just "0x60" (K = 1); yet
`extract_rx_data` also returns the unrelated later token "0x11" instead
of ignoring everything outside the field. -/
theorem extract_rx_trailing_token_counterexample :
    scrubE "RX: 0x60 junk 0x11".toList = "RX: 0x60 junk 0x11".toList ∧
    (∀ j < ("RX: 0x60 junk 0x11".toList).length, j ≠ 0 →
      rxTail (("RX: 0x60 junk 0x11".toList).drop j) = none) ∧
    extract_rx_data "RX: 0x60 junk 0x11".toList
      = some ["0x60".toList, "0x11".toList] ∧
    (["0x60".toList, "0x11".toList] : List (List Char)) ≠ ["0x60".toList] := by
  refine ⟨by decide, by decide, by decide, by decide⟩

/-- C4 (amended): for every text whose scrubbed form decomposes as noise,
then a single response field — the marker RX:, whitespace, and a
contiguous run of K hex tokens — then a tail containing no further hex
token and not extending the run (the original claim fails when hex tokens
follow the field: they are returned too), `extract_rx_data` returns
exactly those K token values in order. -/
theorem extract_rx_field (s pre sep post : List Char) (toks : List (List Char))
    (h1 : scrubE s = pre ++ 'R' :: 'X' :: ':' :: (sep ++ (joinSpace toks ++ post)))
    (h2 : ∀ c ∈ sep, isPySpace c = true)
    (h3 : toks ≠ [])
    (hw : ∀ t ∈ toks, isWfTok t = true)
    (h4 : ∀ j < pre.length, rxTail ((scrubE s).drop j) = none)
    (h5 : ∀ i < post.length, tokAt (post.drop i) = false)
    (h6 : hexAt post = false) :
    extract_rx_data s = some toks := by
  obtain ⟨t, ts, rfl⟩ : ∃ t ts, toks = t :: ts := by
    cases toks with
    | nil => exact absurd rfl h3
    | cons t ts => exact ⟨t, ts, rfl⟩
  obtain ⟨d, ds, ht, hd, _⟩ := isWfTok_shape t (hw t (by simp))
  have hbody : ∃ u, joinSpace (t :: ts) ++ post = '0' :: 'x' :: d :: u := by
    cases ts with
    | nil => exact ⟨ds ++ post, by rw [show joinSpace [t] = t from rfl, ht]; simp⟩
    | cons t' ts' =>
      refine ⟨ds ++ (' ' :: joinSpace (t' :: ts') ++ post), ?_⟩
      rw [show joinSpace (t :: t' :: ts') = t ++ ' ' :: joinSpace (t' :: ts') from rfl, ht]
      simp
  obtain ⟨u, hu⟩ := hbody
  have hrx : rxTail ((scrubE s).drop pre.length) = some (joinSpace (t :: ts) ++ post) := by
    rw [h1, List.drop_left]
    show rxTail ('R' :: 'X' :: ':' :: (sep ++ (joinSpace (t :: ts) ++ post))) = _
    simp only [rxTail]
    rw [dropWhile_app_all isPySpace sep _ h2, hu, List.dropWhile_cons,
      if_neg (by decide : ¬isPySpace '0' = true)]
    simp [hd]
  have hfind : findRxStart (scrubE s) = some (joinSpace (t :: ts) ++ post) :=
    findRxStart_at pre.length (scrubE s) _ hrx h4
  simp only [extract_rx_data, hfind]
  exact congrArg some (hexScan_join (t :: ts) post hw (noTok_of_bounded post h5) h6)

/-- Witness for C4's amended theorem at the concrete scrubbed text
"RX: 0x60". -/
theorem extract_rx_field_witness :
    extract_rx_data "RX: 0x60".toList = some ["0x60".toList] :=
  extract_rx_field "RX: 0x60".toList [] [' '] [] ["0x60".toList]
    (by decide) (by decide) (by decide) (by decide) (by decide) (by decide) (by decide)

/-- C5: on a response whose scrubbed field holds six hex values — fewer
than the eight requested by `[0xEFr:8]` — `read_sensor_data` does not
fail with a length-mismatch error (its only check, line 130, is for no
field at all): it silently assembles adc_T from bytes 3..5 and returns
16464, contradicting its own "Expected 8 bytes" error message. -/
theorem read_sensor_short_response_eval :
    read_sensor_from_response sixByteResp = SensorResult.ok 16464 ∧
    read_sensor_from_response sixByteResp ≠ SensorResult.err := by
  refine ⟨by decide, by decide⟩

/-- C6 counterexample: with a scripted stream whose response field carries
two byte values and requested count n = 2, `i2c_read` returns only the
single first token "0x12" (its regex group captures one value), although
the field in the accumulated response holds the two tokens 0x12 0x34. -/
theorem i2c_read_single_token_counterexample :
    (i2c_read_model promptThenRx 0xEF 2).1 = some "0x12".toList ∧
    findHexTokens (i2cAccs promptThenRx 1 [] 20) = ["0x12".toList, "0x34".toList] ∧
    (["0x12".toList] : List (List Char)) ≠ ["0x12".toList, "0x34".toList] := by
  refine ⟨by decide, by decide, by decide⟩

/-- C6 (amended): for every device address, requested count n ≥ 1 and
scripted stream, when a response-field marker followed by a hex value
appears in the accumulated response before the deadline (say first after
poll j + 1 of at most 20), `i2c_read` returns only the first byte value
extracted after the first response-field marker — a single hex token —
regardless of n. -/
theorem i2c_read_first_value (cs : List (List Char)) (a n j : Nat) (tk : List Char)
    (_hn : 1 ≤ n) (hj : j < 20)
    (h1 : rxFirstToken
      (i2cAccs cs (send_command_model cs 200 ⟨0, 0⟩).2.idx [] (j + 1)) = some tk)
    (h2 : ∀ m ≤ j, rxFirstToken
      (i2cAccs cs (send_command_model cs 200 ⟨0, 0⟩).2.idx [] m) = none) :
    (i2c_read_model cs a n).1 = some tk := by
  show (i2cLoop cs 20 (send_command_model cs 200 ⟨0, 0⟩).2 []).1 = some tk
  exact i2cLoop_finds cs 20 _ [] j tk hj h1 h2

/-- Witness for C6's amended theorem: the two-value stream yields exactly
the first token. -/
theorem i2c_read_first_value_witness :
    (i2c_read_model promptThenRx 0xEF 2).1 = some "0x12".toList :=
  i2c_read_first_value promptThenRx 0xEF 2 0 "0x12".toList (by decide) (by decide)
    (by decide) (by decide)

/-- C7: the response scrubber is idempotent — for every input string,
`clean_response (clean_response s) = clean_response s`. -/
theorem clean_response_idempotent (s : List Char) :
    clean_response (clean_response s) = clean_response s := by
  by_cases h : findHexTokens (voltSub (((ansiSubClean s).filter
      (fun c => c ≠ '\r')).map (fun c => if c = '\n' then ' ' else c))) = []
  · have h1 : clean_response s = noData := by
      simp only [clean_response]
      rw [if_pos h]
    rw [h1]
    decide
  · have h1 : clean_response s = joinSpace (findHexTokens (voltSub (((ansiSubClean s).filter
        (fun c => c ≠ '\r')).map (fun c => if c = '\n' then ' ' else c)))) := by
      simp only [clean_response]
      rw [if_neg h]
    rw [h1]
    exact clean_response_join_fixed _ h (hexScan_wf _ .idle trivial)

/-- C8 counterexample: on a byte stream that never yields any bytes the
wake phase of `initialize_bus_pirate` writes the blank wake line 6 times
— one initial write (line 204) plus the 5 retry writes — not "up to 5
times", before reporting failure and returning no session. -/
theorem bus_wake_six_writes :
    init_bus_pirate_wake stallStream = (6, none) ∧
    ¬((init_bus_pirate_wake stallStream).1 ≤ 5) := by
  refine ⟨by decide, by decide⟩

/-- C8 (amended): when the byte stream never yields any bytes,
`initialize_bus_pirate` sends the blank wake line 6 times in total (one
initial write plus 5 retries, with waits between attempts) and then fails:
it reports failure and returns no usable session. -/
theorem bus_wake_no_response (reads : List (List Char))
    (h : ∀ i, readAt reads i = []) :
    init_bus_pirate_wake reads = (6, none) := by
  unfold init_bus_pirate_wake
  rw [wakeAttempts_stall reads h 5 0]
  rfl

/-- Witness for C8's amended theorem at the empty stream. -/
theorem bus_wake_no_response_witness :
    init_bus_pirate_wake stallStream = (6, none) :=
  bus_wake_no_response stallStream (fun _ => rfl)

/-- C9 counterexample: on a stream that never shows a prompt or
response-field marker, `i2c_read` blocks for 5200 ms — the 0.2 s
post-command delay, send_command's 3 s window and its own 2 s marker
deadline — which exceeds its 2-second deadline measured from the call's
start by far more than one 0.1 s poll interval (it does return the
timeout error None). -/
theorem i2c_read_blocks_past_deadline :
    i2c_read_model stallStream 0xEF 8 = (none, 5200) ∧
    ¬(5200 ≤ 2000 + 100) := by
  refine ⟨by decide, by decide⟩

/-- C9 (amended): every `i2c_read` call that never observes a
response-field marker before its deadline returns None — the timeout
error — to its caller; the call blocks for at most 5250 ms (0.2 s command
delay + send_command's 3 s window + at most one 50 ms poll + its own 2 s
marker deadline of twenty 0.1 s sleeps), not within one poll interval of
the 2-second deadline measured from the call's start. -/
theorem i2c_read_timeout_bound (cs : List (List Char)) (a n : Nat)
    (h : rxFirstToken
      (i2cAccs cs (send_command_model cs 200 ⟨0, 0⟩).2.idx [] 20) = none) :
    (i2c_read_model cs a n).1 = none ∧ (i2c_read_model cs a n).2 ≤ 5250 := by
  constructor
  · show (i2cLoop cs 20 (send_command_model cs 200 ⟨0, 0⟩).2 []).1 = none
    exact i2cLoop_none cs 20 _ [] h
  · show (i2cLoop cs 20 (send_command_model cs 200 ⟨0, 0⟩).2 []).2.time ≤ 5250
    have h1 : (send_command_model cs 200 ⟨0, 0⟩).2.time ≤ 3250 :=
      scLoop_time_le cs 3200 (cs.length + 61) ⟨0, 200⟩ []
        (by show (200 : Nat) ≤ 3200 + 50; omega)
    have h2 := i2cLoop_time_le cs 20 (send_command_model cs 200 ⟨0, 0⟩).2 []
    omega

/-- Witness for C9's amended theorem at the stalling stream. -/
theorem i2c_read_timeout_bound_witness :
    (i2c_read_model stallStream 0xEF 8).1 = none ∧
    (i2c_read_model stallStream 0xEF 8).2 ≤ 5250 :=
  i2c_read_timeout_bound stallStream 0xEF 8 (by decide)

/-- C10: `extract_rx_data` returns None exactly when the scrubbed response
contains no RX: marker followed by a hex token (no suffix matches the
marker pattern), and every non-None result is a non-empty list of
hex-token strings of the form 0x followed by hex digits. -/
theorem extract_rx_none_iff (s : List Char) :
    (extract_rx_data s = none ↔ ∀ i, rxTail ((scrubE s).drop i) = none) ∧
    (∀ ts, extract_rx_data s = some ts → ts ≠ [] ∧ ∀ t ∈ ts, isWfTok t = true) := by
  constructor
  · cases hf : findRxStart (scrubE s) with
    | none =>
      simp only [extract_rx_data, hf]
      exact ⟨fun _ => (findRxStart_none_iff _).mp hf, fun _ => trivial⟩
    | some grp =>
      simp only [extract_rx_data, hf]
      constructor
      · intro h; exact absurd h (by simp)
      · intro hall
        rw [(findRxStart_none_iff _).mpr hall] at hf
        exact absurd hf (by simp)
  · intro ts hts
    cases hf : findRxStart (scrubE s) with
    | none => simp [extract_rx_data, hf] at hts
    | some grp =>
      simp only [extract_rx_data, hf, Option.some_inj] at hts
      subst hts
      obtain ⟨d, rest, hgrp, hd⟩ := findRxStart_some_shape _ grp hf
      constructor
      · rw [show findHexTokens grp = hexScan .idle grp from rfl, hgrp,
          hexScan_step_idle0, hexScan_step_zerox, hexScan_step_zeroXd d rest hd]
        exact hexScan_tok_ne_nil rest [d]
      · exact hexScan_wf grp .idle trivial

/-- Witness for C10 at a concrete response with one token and noise. -/
theorem extract_rx_none_iff_witness :
    (["0x60".toList] : List (List Char)) ≠ [] ∧
    ∀ t ∈ [("0x60".toList : List Char)], isWfTok t = true :=
  (extract_rx_none_iff "RX: 0x60 x".toList).2 ["0x60".toList] (by decide)
